import Mathlib

/-!
# Verification of the ReoLink interval-extraction core

Shallow embedding of `c__motions2intervals_idx` from
`src/reolink/interval/c_interval.pyx`: a single forward scan over a list of
boolean motion flags that collects half-open index intervals `(start, end)`
of maximal runs of `true`, where a run still open when the scan reaches the
end of the input is dropped (never emitted).

The Cython function keeps an `int x_idx` that is `-1` while no run is open
and holds the start index of the current run otherwise; the loop index `i`
runs from `0` to `len(motions) - 1` and each iteration executes `i += 1`.
Emitted pairs are `(x_idx, i)` machine-int tuples; we model them as
`Int × Int` (the values stored are always loop indices, hence nonnegative,
but that is a theorem here, not an assumption of the model).
-/

namespace ReoLink

/-- Loop body of `c__motions2intervals_idx`: state is the scan index `i`,
the open-run marker `x_idx` (`-1` = no run open, otherwise the start
index), and the accumulator `motion_intervals` (Python `list.append`
appends at the right). Mirrors the `while i < motion_list_size` loop. -/
def c__motions2intervals_idx_go (motions : List Bool) (i : Nat) (x_idx : Int)
    (motion_intervals : List (Int × Int)) : List (Int × Int) :=
  if h : i < motions.length then
    let x := motions.get ⟨i, h⟩
    if x_idx = -1 then
      -- Looking for start of interval
      if x then
        c__motions2intervals_idx_go motions (i + 1) (i : Int) motion_intervals
      else
        c__motions2intervals_idx_go motions (i + 1) (-1) motion_intervals
    else
      if x then
        -- Don't close interval, continue
        c__motions2intervals_idx_go motions (i + 1) x_idx motion_intervals
      else
        c__motions2intervals_idx_go motions (i + 1) (-1)
          (motion_intervals ++ [(x_idx, (i : Int))])
  else
    motion_intervals
termination_by motions.length - i

/-- `c__motions2intervals_idx(motions)`: run the scan from index `0`, no run
open (`x_idx = -1`), empty result list. -/
def c__motions2intervals_idx (motions : List Bool) : List (Int × Int) :=
  c__motions2intervals_idx_go motions 0 (-1) []

/-- Fuel-indexed variant of the scan loop: consumes one unit of fuel per
loop iteration and returns `none` if fuel runs out with the loop guard
still true. Used to state that the loop terminates after exactly
`motions.length` iterations (the index advances by one each time). -/
def c__motions2intervals_idx_fuel (fuel : Nat) (motions : List Bool) (i : Nat)
    (x_idx : Int) (motion_intervals : List (Int × Int)) :
    Option (List (Int × Int)) :=
  match fuel with
  | 0 => if i < motions.length then none else some motion_intervals
  | fuel + 1 =>
    if h : i < motions.length then
      let x := motions.get ⟨i, h⟩
      if x_idx = -1 then
        if x then
          c__motions2intervals_idx_fuel fuel motions (i + 1) (i : Int)
            motion_intervals
        else
          c__motions2intervals_idx_fuel fuel motions (i + 1) (-1)
            motion_intervals
      else
        if x then
          c__motions2intervals_idx_fuel fuel motions (i + 1) x_idx
            motion_intervals
        else
          c__motions2intervals_idx_fuel fuel motions (i + 1) (-1)
            (motion_intervals ++ [(x_idx, (i : Int))])
    else
      some motion_intervals

/-- The invariants the scan guarantees for an emitted pair `(s, e)`:
a nonempty half-open range of `true` samples strictly inside the input,
closed at a `false` sample and not extendable to the left. -/
def goodInterval (motions : List Bool) (s e : Nat) : Prop :=
  s < e ∧ e < motions.length ∧
    (∀ j, s ≤ j → j < e → motions.getD j false = true) ∧
    motions.getD e false = false ∧
    (s = 0 ∨ motions.getD (s - 1) false = false)

/-- Loop invariant on the scan state `(i, x_idx)`: either no run is open
and the previous sample (if any) was `false`, or a run is open whose start
`s` carries the facts accumulated so far. -/
def StateInv (motions : List Bool) (i : Nat) (x_idx : Int) : Prop :=
  (x_idx = -1 ∧ (i = 0 ∨ motions.getD (i - 1) false = false)) ∨
    (∃ s : Nat, x_idx = (s : Int) ∧ s < i ∧
      (∀ j, s ≤ j → j < i → motions.getD j false = true) ∧
      (s = 0 ∨ motions.getD (s - 1) false = false))

/-- Lower bound on the start of any interval the scan can still emit from
state `(i, x_idx)`. -/
def stateLB (i : Nat) (x_idx : Int) : Int :=
  if x_idx = -1 then (i : Int) else x_idx

theorem stateLB_closed (i : Nat) : stateLB i (-1) = (i : Int) := by
  simp [stateLB]

theorem stateLB_run (i : Nat) (s : Nat) :
    stateLB i ((s : Nat) : Int) = (s : Int) := by
  rw [stateLB, if_neg]
  omega

theorem getD_eq_getElem_self (motions : List Bool) (i : Nat)
    (h : i < motions.length) : motions.getD i false = motions[i] := by
  simp [List.getD_eq_getElem?_getD, List.getElem?_eq_getElem h]

theorem go_stop (motions : List Bool) (i : Nat) (x_idx : Int)
    (acc : List (Int × Int)) (h : ¬ i < motions.length) :
    c__motions2intervals_idx_go motions i x_idx acc = acc := by
  rw [c__motions2intervals_idx_go]
  simp [h]

theorem go_step_open (motions : List Bool) (i : Nat) (acc : List (Int × Int))
    (h : i < motions.length) (hx : motions[i] = true) :
    c__motions2intervals_idx_go motions i (-1) acc =
      c__motions2intervals_idx_go motions (i + 1) (i : Int) acc := by
  rw [c__motions2intervals_idx_go]
  simp [h, hx]

theorem go_step_skip (motions : List Bool) (i : Nat) (acc : List (Int × Int))
    (h : i < motions.length) (hx : motions[i] = false) :
    c__motions2intervals_idx_go motions i (-1) acc =
      c__motions2intervals_idx_go motions (i + 1) (-1) acc := by
  rw [c__motions2intervals_idx_go]
  simp [h, hx]

theorem go_step_extend (motions : List Bool) (i : Nat) (x_idx : Int)
    (acc : List (Int × Int)) (hxi : x_idx ≠ -1)
    (h : i < motions.length) (hx : motions[i] = true) :
    c__motions2intervals_idx_go motions i x_idx acc =
      c__motions2intervals_idx_go motions (i + 1) x_idx acc := by
  rw [c__motions2intervals_idx_go]
  simp [h, hx, hxi]

theorem go_step_emit (motions : List Bool) (i : Nat) (x_idx : Int)
    (acc : List (Int × Int)) (hxi : x_idx ≠ -1)
    (h : i < motions.length) (hx : motions[i] = false) :
    c__motions2intervals_idx_go motions i x_idx acc =
      c__motions2intervals_idx_go motions (i + 1) (-1)
        (acc ++ [(x_idx, (i : Int))]) := by
  rw [c__motions2intervals_idx_go]
  simp [h, hx, hxi]

/-- Main loop invariant: from any state satisfying `StateInv` the scan
returns the accumulator extended by a block of good intervals, all starting
at or after the state's lower bound, strictly chained. -/
theorem go_spec (motions : List Bool) :
    ∀ (i : Nat) (x_idx : Int) (acc : List (Int × Int)),
      StateInv motions i x_idx →
      ∃ tail, c__motions2intervals_idx_go motions i x_idx acc = acc ++ tail ∧
        (∀ p ∈ tail, ∃ s e : Nat, p = ((s : Int), (e : Int)) ∧
          goodInterval motions s e ∧ stateLB i x_idx ≤ (s : Int)) ∧
        List.Chain' (fun p q : Int × Int => p.2 < q.1) tail := by
  intro i x_idx acc
  induction i, x_idx, acc using c__motions2intervals_idx_go.induct motions with
  | case1 i acc h x hx ih =>
    -- x_idx = -1, motions[i] = true : open a run at i
    intro hinv
    have hx' : motions[i] = true := hx
    have hnext : StateInv motions (i + 1) (i : Int) := by
      refine Or.inr ⟨i, rfl, Nat.lt_succ_self i, ?_, ?_⟩
      · intro j hj1 hj2
        have : j = i := by omega
        subst this
        rw [getD_eq_getElem_self motions j h]
        exact hx'
      · rcases hinv with ⟨_, hprev⟩ | ⟨s, hs, _⟩
        · exact hprev
        · exact absurd hs (by simp)
    obtain ⟨tail, heq, hmem, hchain⟩ := ih hnext
    refine ⟨tail, ?_, ?_, hchain⟩
    · rw [go_step_open motions i acc h hx']
      exact heq
    · intro p hp
      obtain ⟨s, e, hpe, hgood, hlb⟩ := hmem p hp
      rw [stateLB_run] at hlb
      refine ⟨s, e, hpe, hgood, ?_⟩
      rw [stateLB_closed]
      exact hlb
  | case2 i acc h x hx ih =>
    -- x_idx = -1, motions[i] = false : stay closed
    intro hinv
    have hx' : motions[i] = false := by simpa using hx
    have hfalse : motions.getD i false = false := by
      rw [getD_eq_getElem_self motions i h]
      exact hx'
    have hnext : StateInv motions (i + 1) (-1) :=
      Or.inl ⟨rfl, Or.inr (by simpa using hfalse)⟩
    obtain ⟨tail, heq, hmem, hchain⟩ := ih hnext
    refine ⟨tail, ?_, ?_, hchain⟩
    · rw [go_step_skip motions i acc h hx']
      exact heq
    · intro p hp
      obtain ⟨s, e, hpe, hgood, hlb⟩ := hmem p hp
      rw [stateLB_closed] at hlb
      refine ⟨s, e, hpe, hgood, ?_⟩
      rw [stateLB_closed]
      omega
  | case3 i x_idx acc h x hxi hx ih =>
    -- run open, motions[i] = true : extend the run
    intro hinv
    have hx' : motions[i] = true := hx
    rcases hinv with ⟨hcontra, _⟩ | ⟨s, hs, hsi, hrun, hleft⟩
    · exact absurd hcontra hxi
    have hnext : StateInv motions (i + 1) x_idx := by
      refine Or.inr ⟨s, hs, by omega, ?_, hleft⟩
      intro j hj1 hj2
      rcases Nat.lt_or_ge j i with hj | hj
      · exact hrun j hj1 hj
      · have : j = i := by omega
        subst this
        rw [getD_eq_getElem_self motions j h]
        exact hx'
    obtain ⟨tail, heq, hmem, hchain⟩ := ih hnext
    refine ⟨tail, ?_, ?_, hchain⟩
    · rw [go_step_extend motions i x_idx acc hxi h hx']
      exact heq
    · intro p hp
      obtain ⟨s', e', hpe, hgood, hlb⟩ := hmem p hp
      rw [hs, stateLB_run] at hlb ⊢
      exact ⟨s', e', hpe, hgood, hlb⟩
  | case4 i x_idx acc h x hxi hx ih =>
    -- run open, motions[i] = false : emit (x_idx, i) and close
    intro hinv
    have hx' : motions[i] = false := by simpa using hx
    rcases hinv with ⟨hcontra, _⟩ | ⟨s, hs, hsi, hrun, hleft⟩
    · exact absurd hcontra hxi
    have hfalse : motions.getD i false = false := by
      rw [getD_eq_getElem_self motions i h]
      exact hx'
    have hnext : StateInv motions (i + 1) (-1) :=
      Or.inl ⟨rfl, Or.inr (by simpa using hfalse)⟩
    obtain ⟨tail, heq, hmem, hchain⟩ := ih hnext
    refine ⟨(x_idx, (i : Int)) :: tail, ?_, ?_, ?_⟩
    · rw [go_step_emit motions i x_idx acc hxi h hx']
      rw [heq]
      simp
    · intro p hp
      rcases List.mem_cons.mp hp with hp | hp
      · subst hp
        refine ⟨s, i, by rw [hs], ⟨hsi, h, hrun, hfalse, hleft⟩, ?_⟩
        rw [hs, stateLB_run]
      · obtain ⟨s', e', hpe, hgood, hlb⟩ := hmem p hp
        rw [stateLB_closed] at hlb
        refine ⟨s', e', hpe, hgood, ?_⟩
        rw [hs, stateLB_run]
        omega
    · rw [List.chain'_cons']
      refine ⟨?_, hchain⟩
      intro q hq
      have hqmem : q ∈ tail := by
        cases tail with
        | nil => simp at hq
        | cons a l =>
          simp at hq
          subst hq
          simp
      obtain ⟨s', e', hpe, hgood, hlb⟩ := hmem q hqmem
      rw [stateLB_closed] at hlb
      rw [hpe]
      simp only
      omega
  | case5 i x_idx acc h =>
    intro _
    exact ⟨[], by rw [go_stop motions i x_idx acc h]; simp, by simp, by simp⟩

/-- Top-level form of the loop invariant: every member of the returned
list is a good interval, and the list is strictly chained. -/
theorem c__motions2intervals_idx_spec (motions : List Bool) :
    (∀ p ∈ c__motions2intervals_idx motions, ∃ s e : Nat,
      p = ((s : Int), (e : Int)) ∧ goodInterval motions s e) ∧
    List.Chain' (fun p q : Int × Int => p.2 < q.1)
      (c__motions2intervals_idx motions) := by
  obtain ⟨tail, heq, hmem, hchain⟩ :=
    go_spec motions 0 (-1) [] (Or.inl ⟨rfl, Or.inl rfl⟩)
  have hres : c__motions2intervals_idx motions = tail := by
    rw [c__motions2intervals_idx, heq]
    simp
  rw [hres]
  refine ⟨?_, hchain⟩
  intro p hp
  obtain ⟨s, e, hpe, hgood, _⟩ := hmem p hp
  exact ⟨s, e, hpe, hgood⟩

/-- The scan never emits anything while every remaining sample is `true`:
whatever state it is in, it just returns its accumulator. This is the
"trailing open run is dropped" behavior in loop form. -/
theorem go_all_true (motions : List Bool) :
    ∀ (i : Nat) (x_idx : Int) (acc : List (Int × Int)),
      (∀ j, i ≤ j → j < motions.length → motions.getD j false = true) →
      c__motions2intervals_idx_go motions i x_idx acc = acc := by
  intro i x_idx acc
  induction i, x_idx, acc using c__motions2intervals_idx_go.induct motions with
  | case1 i acc h x hx ih =>
    intro hall
    have hx' : motions[i] = true := hx
    rw [go_step_open motions i acc h hx']
    exact ih fun j hj1 hj2 => hall j (by omega) hj2
  | case2 i acc h x hx ih =>
    intro hall
    have hx' : motions[i] = false := by simpa using hx
    have := hall i (le_refl i) h
    rw [getD_eq_getElem_self motions i h, hx'] at this
    exact absurd this (by simp)
  | case3 i x_idx acc h x hxi hx ih =>
    intro hall
    have hx' : motions[i] = true := hx
    rw [go_step_extend motions i x_idx acc hxi h hx']
    exact ih fun j hj1 hj2 => hall j (by omega) hj2
  | case4 i x_idx acc h x hxi hx ih =>
    intro hall
    have hx' : motions[i] = false := by simpa using hx
    have := hall i (le_refl i) h
    rw [getD_eq_getElem_self motions i h, hx'] at this
    exact absurd this (by simp)
  | case5 i x_idx acc h =>
    intro _
    exact go_stop motions i x_idx acc h

/-- The scan in the no-run-open state never emits anything while every
remaining sample is `false`. -/
theorem go_all_false (motions : List Bool) :
    ∀ (i : Nat) (x_idx : Int) (acc : List (Int × Int)),
      x_idx = -1 →
      (∀ j, i ≤ j → j < motions.length → motions.getD j false = false) →
      c__motions2intervals_idx_go motions i x_idx acc = acc := by
  intro i x_idx acc
  induction i, x_idx, acc using c__motions2intervals_idx_go.induct motions with
  | case1 i acc h x hx ih =>
    intro _ hall
    have hx' : motions[i] = true := hx
    have := hall i (le_refl i) h
    rw [getD_eq_getElem_self motions i h, hx'] at this
    exact absurd this (by simp)
  | case2 i acc h x hx ih =>
    intro _ hall
    have hx' : motions[i] = false := by simpa using hx
    rw [go_step_skip motions i acc h hx']
    exact ih rfl fun j hj1 hj2 => hall j (by omega) hj2
  | case3 i x_idx acc h x hxi hx ih =>
    intro hcontra _
    exact absurd hcontra hxi
  | case4 i x_idx acc h x hxi hx ih =>
    intro hcontra _
    exact absurd hcontra hxi
  | case5 i x_idx acc h =>
    intro _ _
    exact go_stop motions i x_idx acc h

/-- The fuel-indexed loop agrees with the loop whenever the fuel covers the
number of remaining iterations `motions.length - i`. -/
theorem fuel_go_eq (motions : List Bool) :
    ∀ (k i : Nat) (x_idx : Int) (acc : List (Int × Int)),
      motions.length - i ≤ k →
      c__motions2intervals_idx_fuel k motions i x_idx acc =
        some (c__motions2intervals_idx_go motions i x_idx acc) := by
  intro k
  induction k with
  | zero =>
    intro i x_idx acc hk
    have h : ¬ i < motions.length := by omega
    rw [go_stop motions i x_idx acc h]
    simp [c__motions2intervals_idx_fuel, h]
  | succ n ihn =>
    intro i x_idx acc hk
    by_cases h : i < motions.length
    · have hk' : motions.length - (i + 1) ≤ n := by omega
      by_cases hxi : x_idx = -1
      · subst hxi
        cases hx : motions[i] with
        | false =>
          rw [go_step_skip motions i acc h hx]
          simpa [c__motions2intervals_idx_fuel, h, hx] using
            ihn (i + 1) (-1) acc hk'
        | true =>
          rw [go_step_open motions i acc h hx]
          simpa [c__motions2intervals_idx_fuel, h, hx] using
            ihn (i + 1) (i : Int) acc hk'
      · cases hx : motions[i] with
        | false =>
          rw [go_step_emit motions i x_idx acc hxi h hx]
          simpa [c__motions2intervals_idx_fuel, h, hx, hxi] using
            ihn (i + 1) (-1) (acc ++ [(x_idx, (i : Int))]) hk'
        | true =>
          rw [go_step_extend motions i x_idx acc hxi h hx]
          simpa [c__motions2intervals_idx_fuel, h, hx, hxi] using
            ihn (i + 1) x_idx acc hk'
    · rw [go_stop motions i x_idx acc h]
      simp [c__motions2intervals_idx_fuel, h]

/-- Transfer a strict chain to any relation implied on elements that all
satisfy a common membership property. -/
theorem chain_of_chain_of_mem {α : Type} (R S : α → α → Prop) (G : α → Prop) :
    ∀ l : List α, List.Chain' R l → (∀ p ∈ l, G p) →
      (∀ p q, G p → G q → R p q → S p q) → List.Chain' S l := by
  intro l
  induction l with
  | nil =>
    intro _ _ _
    exact List.chain'_nil
  | cons a t iht =>
    intro hch hmem himp
    rw [List.chain'_cons'] at hch ⊢
    refine ⟨?_, iht hch.2 (fun p hp => hmem p (List.mem_cons_of_mem a hp)) himp⟩
    intro q hq
    have hqmem : q ∈ t := by
      cases t with
      | nil => simp at hq
      | cons b l =>
        simp at hq
        subst hq
        simp
    exact himp a q (hmem a (List.mem_cons_self a t))
      (hmem q (List.mem_cons_of_mem a hqmem)) (hch.1 q hq)

/-- Evaluation helper: a small input with one closed run, used by the
witnesses below. -/
theorem eval_one_run :
    c__motions2intervals_idx [false, true, false] = [(1, 2)] := by
  simp [c__motions2intervals_idx, c__motions2intervals_idx_go]

/-- Claim C1: a run of `true` values still open when the scan reaches the
end of the sequence is not emitted; in particular, for every `N`, the
all-true input of length `N` yields the empty interval list (not
`[(0, N)]`). -/
theorem claim_c1_trailing_run_dropped :
    ∀ N : Nat, c__motions2intervals_idx (List.replicate N true) = [] := by
  intro N
  rw [c__motions2intervals_idx]
  apply go_all_true
  intro j _ hj
  rw [getD_eq_getElem_self _ j hj]
  simp

/-- Claim C2: every interval `(s, e)` returned by the extractor covers only
`true` samples: `motions[i] = true` for every `i` with `s ≤ i < e`. -/
theorem claim_c2_intervals_cover_true (motions : List Bool) (p : Int × Int)
    (hp : p ∈ c__motions2intervals_idx motions) :
    ∀ j : Nat, p.1 ≤ (j : Int) → (j : Int) < p.2 →
      motions.getD j false = true := by
  obtain ⟨s, e, hpe, hgood⟩ := (c__motions2intervals_idx_spec motions).1 p hp
  intro j h1 h2
  rw [hpe] at h1 h2
  simp only at h1 h2
  exact hgood.2.2.1 j (by exact_mod_cast h1) (by exact_mod_cast h2)

/-- Claim C3: every interval `(start, end)` emitted on an input of length
`N` satisfies `0 ≤ start < end ≤ N`. -/
theorem claim_c3_interval_bounds (motions : List Bool) (p : Int × Int)
    (hp : p ∈ c__motions2intervals_idx motions) :
    0 ≤ p.1 ∧ p.1 < p.2 ∧ p.2 ≤ (motions.length : Int) := by
  obtain ⟨s, e, hpe, hgood⟩ := (c__motions2intervals_idx_spec motions).1 p hp
  have h1 : s < e := hgood.1
  have h2 : e < motions.length := hgood.2.1
  rw [hpe]
  refine ⟨by simp, ?_, ?_⟩ <;> simp only <;> omega

/-- Claim C4: the intervals are emitted in strictly increasing order of
start and are pairwise non-overlapping: consecutive emitted intervals
`(s1, e1)`, `(s2, e2)` satisfy `s1 < s2` and `e1 ≤ s2`. -/
theorem claim_c4_sorted_disjoint (motions : List Bool) :
    List.Chain' (fun p q : Int × Int => p.1 < q.1 ∧ p.2 ≤ q.1)
      (c__motions2intervals_idx motions) := by
  obtain ⟨hmem, hchain⟩ := c__motions2intervals_idx_spec motions
  refine chain_of_chain_of_mem _ _
    (fun p => ∃ s e : Nat, p = ((s : Int), (e : Int)) ∧
      goodInterval motions s e) _ hchain hmem ?_
  intro p q hgp hgq hr
  obtain ⟨s, e, hpe, hg⟩ := hgp
  obtain ⟨s', e', hqe, hg'⟩ := hgq
  have h1 : s < e := hg.1
  subst hpe
  subst hqe
  simp only at hr ⊢
  omega

/-- Claim C5: every emitted interval is left-maximal (`start = 0` or
`motions[start-1] = false`), and no two consecutive emitted intervals can
be merged: some index `j` with `e1 ≤ j < s2` holds a `false` sample. -/
theorem claim_c5_maximality (motions : List Bool) :
    (∀ p ∈ c__motions2intervals_idx motions, ∃ s : Nat, p.1 = (s : Int) ∧
      (s = 0 ∨ motions.getD (s - 1) false = false)) ∧
    List.Chain' (fun p q : Int × Int => ∃ j : Nat, p.2 ≤ (j : Int) ∧
      (j : Int) < q.1 ∧ motions.getD j false = false)
      (c__motions2intervals_idx motions) := by
  obtain ⟨hmem, hchain⟩ := c__motions2intervals_idx_spec motions
  constructor
  · intro p hp
    obtain ⟨s, e, hpe, hgood⟩ := hmem p hp
    exact ⟨s, by rw [hpe], hgood.2.2.2.2⟩
  · refine chain_of_chain_of_mem _ _
      (fun p => ∃ s e : Nat, p = ((s : Int), (e : Int)) ∧
        goodInterval motions s e) _ hchain hmem ?_
    intro p q hgp hgq hr
    obtain ⟨s, e, hpe, hg⟩ := hgp
    obtain ⟨s', e', hqe, hg'⟩ := hgq
    subst hpe
    subst hqe
    simp only at hr ⊢
    exact ⟨e, le_refl _, hr, hg.2.2.2.1⟩

/-- Claim C6: on an input with no `true` value — the empty sequence or any
all-false sequence — the extractor returns the empty interval list. -/
theorem claim_c6_no_true_empty (motions : List Bool)
    (h : ∀ b ∈ motions, b = false) :
    c__motions2intervals_idx motions = [] := by
  rw [c__motions2intervals_idx]
  apply go_all_false motions 0 (-1) [] rfl
  intro j _ hj
  rw [getD_eq_getElem_self motions j hj]
  exact h _ (List.getElem_mem hj)

/-- Claim C7: the spec scenario table: `[False, True, True, False]` yields
`[(1, 3)]` and `[True, False, True, False, True, True]` yields
`[(0, 1), (2, 3)]` (the final run at indices 4-5 is dropped). -/
theorem claim_c7_scenarios :
    c__motions2intervals_idx [false, true, true, false] = [(1, 3)] ∧
    c__motions2intervals_idx [true, false, true, false, true, true] =
      [(0, 1), (2, 3)] := by
  constructor <;>
    simp [c__motions2intervals_idx, c__motions2intervals_idx_go] <;> decide

/-- Claim C8: the scan is total and terminating: the loop advances the
index each iteration, so a fuel budget of `motions.length` iterations
already makes the fuel-metered loop return (with `some`, never an error)
the same result as the function, for every input. -/
theorem claim_c8_total_terminating (motions : List Bool) :
    c__motions2intervals_idx_fuel motions.length motions 0 (-1) [] =
      some (c__motions2intervals_idx motions) := by
  rw [c__motions2intervals_idx]
  exact fuel_go_eq motions motions.length 0 (-1) [] (by omega)

/-- Claim C9: the extractor is deterministic: two invocations on the same
input yield identical interval lists. -/
theorem claim_c9_deterministic (m1 m2 : List Bool) (h : m1 = m2) :
    c__motions2intervals_idx m1 = c__motions2intervals_idx m2 := by
  rw [h]

/-- Claim C10 (implicit): every emitted interval `(start, end)` satisfies
`end < N` and `motions[end] = false` unconditionally — an emitted interval
is only ever closed at an in-range `false` sample. -/
theorem claim_c10_closed_at_false (motions : List Bool) (p : Int × Int)
    (hp : p ∈ c__motions2intervals_idx motions) :
    ∃ e : Nat, p.2 = (e : Int) ∧ e < motions.length ∧
      motions.getD e false = false := by
  obtain ⟨s, e, hpe, hgood⟩ := (c__motions2intervals_idx_spec motions).1 p hp
  exact ⟨e, by rw [hpe], hgood.2.1, hgood.2.2.2.1⟩

/-- Witness for C2 at the concrete input `[false, true, false]`, interval
`(1, 2)`, index `1`. -/
theorem claim_c2_witness :
    ([false, true, false] : List Bool).getD 1 false = true :=
  claim_c2_intervals_cover_true [false, true, false] ((1 : Int), (2 : Int))
    (by rw [eval_one_run]; exact List.mem_singleton.mpr rfl)
    1 (by decide) (by decide)

/-- Witness for C3 at the concrete input `[false, true, false]`, interval
`(1, 2)`. -/
theorem claim_c3_witness :
    0 ≤ ((1 : Int), (2 : Int)).1 ∧
      ((1 : Int), (2 : Int)).1 < ((1 : Int), (2 : Int)).2 ∧
      ((1 : Int), (2 : Int)).2 ≤
        ((([false, true, false] : List Bool)).length : Int) :=
  claim_c3_interval_bounds [false, true, false] ((1 : Int), (2 : Int))
    (by rw [eval_one_run]; exact List.mem_singleton.mpr rfl)

/-- Witness for C5 at the concrete input `[false, true, false]`, interval
`(1, 2)`. -/
theorem claim_c5_witness :
    ∃ s : Nat, ((1 : Int), (2 : Int)).1 = (s : Int) ∧
      (s = 0 ∨ ([false, true, false] : List Bool).getD (s - 1) false = false) :=
  (claim_c5_maximality [false, true, false]).1 ((1 : Int), (2 : Int))
    (by rw [eval_one_run]; exact List.mem_singleton.mpr rfl)

/-- Witness for C6 at the concrete all-false input `[false, false]`. -/
theorem claim_c6_witness :
    c__motions2intervals_idx [false, false] = [] :=
  claim_c6_no_true_empty [false, false] (by decide)

/-- Witness for C9 at the concrete input `[true]`. -/
theorem claim_c9_witness :
    c__motions2intervals_idx [true] = c__motions2intervals_idx [true] :=
  claim_c9_deterministic [true] [true] rfl

/-- Witness for C10 at the concrete input `[false, true, false]`, interval
`(1, 2)`. -/
theorem claim_c10_witness :
    ∃ e : Nat, ((1 : Int), (2 : Int)).2 = (e : Int) ∧
      e < ([false, true, false] : List Bool).length ∧
      ([false, true, false] : List Bool).getD e false = false :=
  claim_c10_closed_at_false [false, true, false] ((1 : Int), (2 : Int))
    (by rw [eval_one_run]; exact List.mem_singleton.mpr rfl)

end ReoLink
